import Mathlib

/-!
Verification of the spectral-analysis core of the rust-audio-visualiser
repository against its natural-language specification.

Shallow embedding conventions:
* Rust `f32` values are modelled as exact rationals (`ℚ`).  Every claim
  settled below either depends only on operations that are exact in IEEE
  `f32` at the inputs considered (sums/products of small dyadic values,
  comparisons, integer truncations), or is structural (lengths, index
  ranges, orderings) and therefore independent of rounding.  Where a
  computation is genuinely transcendental (`log10`, `powf`, window
  coefficients) it is abstracted as an explicit parameter and the theorems
  quantify over every value it could take.
* Rust slices/`Vec` become `List`, in-place mutation becomes returning the
  new list, and a Rust panic (out-of-bounds index, `copy_from_slice`
  length mismatch, `rustfft` buffer-size assertion) becomes `Option.none`.
-/

/-! ### src/smoothing.rs -/

/-- Embedding of `SmoothingStrategy` from src/smoothing.rs. -/
inductive SmoothingStrategy where
  | RiseFall (rise fall : ℚ) : SmoothingStrategy
  | None : SmoothingStrategy

/-- One iteration of the rise/fall loop body: blend with `rise` when the
current value exceeds the stored one, with `fall` otherwise
(src/smoothing.rs lines 12-18). -/
def rfStep (rise fall p c : ℚ) : ℚ :=
  if p < c then p * rise + c * (1 - rise) else p * fall + c * (1 - fall)

/-- Embedding of `rise_fall_smoothing` from src/smoothing.rs lines 6-19.  The source
mutates `previous` in place; the model returns the new contents.
`none` models a panic: `copy_from_slice` panics when lengths differ, and
the loop indexes `previous[i]` for every `i < current.len()`. -/
def rise_fall_smoothing (previous current : List ℚ) (rise fall : ℚ) :
    Option (List ℚ) :=
  if previous.isEmpty then
    if current.length = previous.length then some current else none
  else if current.length ≤ previous.length then
    some (((previous.zip current).map fun pc => rfStep rise fall pc.1 pc.2)
      ++ previous.drop current.length)
  else none

/-- Embedding of `SmoothingStrategy::smooth` from src/smoothing.rs lines 21-31.
The `None` arm of the `match` is `()` — it leaves `previous` untouched. -/
def SmoothingStrategy.smooth :
    SmoothingStrategy → List ℚ → List ℚ → Option (List ℚ)
  | .RiseFall rise fall, previous, current =>
      rise_fall_smoothing previous current rise fall
  | .None, previous, _ => some previous

/-! ### src/spectra.rs : harmonic product spectrum -/

/-- Inner loop of `frequency_to_harmonic_product_spectrum`
(src/spectra.rs lines 154-158): for `j in 2..=downsamples`,
`result[i] *= frequencies[j * i]`. -/
def hpsInner (freq : List ℚ) (downsamples : ℕ) (res : List ℚ) (i : ℕ) :
    List ℚ :=
  (List.range' 2 (downsamples - 1)).foldl
    (fun r j => r.set i (r.getD i 0 * freq.getD (j * i) 0)) res

/-- Outer loop of `frequency_to_harmonic_product_spectrum`
(src/spectra.rs lines 154-158): `for i in 1..output_len`. -/
def hpsLoop (freq : List ℚ) (downsamples : ℕ) (res : List ℚ) : List ℚ :=
  (List.range' 1 (res.length - 1)).foldl (hpsInner freq downsamples) res

/-- Embedding of `frequency_to_harmonic_product_spectrum` from src/spectra.rs
lines 146-161. `downsamples ≤ 1` returns a copy; otherwise the result
starts as `frequencies[0..len/downsamples]` and entries `1..` are
multiplied by the harmonic samples. -/
def frequency_to_harmonic_product_spectrum (freq : List ℚ)
    (downsamples : ℕ) : List ℚ :=
  if downsamples ≤ 1 then freq
  else hpsLoop freq downsamples (freq.take (freq.length / downsamples))

/-! ### Claim C1: first-call initialization of the RiseFall smoother -/

/-- Claim C1.  The spec asserts that a first-ever smoothing call on a
fresh all-zero stored vector `[0.0]` with current `[0.8]` stores exactly
`0.8`, and a second call with `[0.2]` stores `0.74`.  The code's
first-call guard is `previous.is_empty()`, which is false for the
length-1 zero vector, so the first call blends: it stores
`0·0.5 + 0.8·0.5 = 0.4`, and the second call stores
`0.4·0.9 + 0.2·0.1 = 0.38` — the code contradicts the spec (and carries a
`TODO: Fix this` on exactly this guard).  All arithmetic here is exact in
`f32`. -/
theorem c1_first_call_blends :
    (SmoothingStrategy.RiseFall (1/2) (9/10)).smooth [0] [4/5]
        = some [2/5] ∧
    (SmoothingStrategy.RiseFall (1/2) (9/10)).smooth [2/5] [1/5]
        = some [19/50] ∧
    ([2/5] : List ℚ) ≠ [4/5] ∧ ([19/50] : List ℚ) ≠ [37/50] := by
  refine ⟨?_, ?_, by norm_num, by norm_num⟩ <;>
    simp [SmoothingStrategy.smooth, rise_fall_smoothing, rfStep] <;> norm_num

/-! ### Claim C5: the None smoothing strategy -/

/-- Claim C5.  The spec requires the `None` smoothing mode to overwrite
the stored vector `S` with the current vector `C` each frame.  The code's
`None` match arm is `()`: it leaves `S` untouched, so after a call with
`S = [0]` and `C = [1/2]` the stored vector is still `[0]`, not
`[1/2]`. -/
theorem c5_none_is_noop :
    SmoothingStrategy.None.smooth [0] [1/2] = some [0] ∧
    (some [0] : Option (List ℚ)) ≠ some [1/2] := by
  exact ⟨rfl, by norm_num⟩

/-! ### Claim C3: harmonic product spectrum -/

lemma foldl_set_const_length (js : List ℕ) (f : List ℚ → ℕ → ℚ) (i : ℕ) :
    ∀ res : List ℚ,
      (js.foldl (fun r j => r.set i (f r j)) res).length = res.length := by
  induction js with
  | nil => intro res; rfl
  | cons j js ih => intro res; simp only [List.foldl_cons, ih, List.length_set]

lemma hpsInner_length (freq : List ℚ) (D : ℕ) (res : List ℚ) (i : ℕ) :
    (hpsInner freq D res i).length = res.length :=
  foldl_set_const_length _ _ _ res

lemma foldl_hpsInner_length (freq : List ℚ) (D : ℕ) (is : List ℕ) :
    ∀ res : List ℚ,
      (is.foldl (hpsInner freq D) res).length = res.length := by
  induction is with
  | nil => intro res; rfl
  | cons i is ih =>
      intro res
      simp only [List.foldl_cons, ih, hpsInner_length]

lemma foldl_set_const_getD_ne (js : List ℕ) (f : List ℚ → ℕ → ℚ) (i k : ℕ)
    (hik : i ≠ k) :
    ∀ res : List ℚ,
      (js.foldl (fun r j => r.set i (f r j)) res).getD k 0 = res.getD k 0 := by
  induction js with
  | nil => intro res; rfl
  | cons j js ih =>
      intro res
      simp only [List.foldl_cons, ih]
      simp [List.getD_eq_getElem?_getD, List.getElem?_set_ne hik]

lemma hpsInner_getD_ne (freq : List ℚ) (D : ℕ) (res : List ℚ) (i k : ℕ)
    (hik : i ≠ k) : (hpsInner freq D res i).getD k 0 = res.getD k 0 :=
  foldl_set_const_getD_ne _ _ _ _ hik res

lemma foldl_hpsInner_getD_ne (freq : List ℚ) (D : ℕ) (is : List ℕ) (k : ℕ)
    (hk : k ∉ is) :
    ∀ res : List ℚ,
      (is.foldl (hpsInner freq D) res).getD k 0 = res.getD k 0 := by
  induction is with
  | nil => intro res; rfl
  | cons i is ih =>
      intro res
      have hik : i ≠ k := fun h => hk (h ▸ List.mem_cons_self i is)
      have hk' : k ∉ is := fun h => hk (List.mem_cons_of_mem _ h)
      simp only [List.foldl_cons, ih hk', hpsInner_getD_ne freq D res i k hik]

lemma foldl_set_const_getD_self (freq : List ℚ) (i : ℕ) (js : List ℕ) :
    ∀ res : List ℚ, i < res.length →
      (js.foldl (fun r j => r.set i (r.getD i 0 * freq.getD (j * i) 0))
          res).getD i 0
        = res.getD i 0 * (js.map fun j => freq.getD (j * i) 0).prod := by
  induction js with
  | nil => intro res _; simp
  | cons j js ih =>
      intro res hres
      have hlen : (res.set i (res.getD i 0 * freq.getD (j * i) 0)).length
          = res.length := List.length_set _ _ _
      have hset : (res.set i (res.getD i 0 * freq.getD (j * i) 0)).getD i 0
          = res.getD i 0 * freq.getD (j * i) 0 := by
        simp [List.getD_eq_getElem?_getD, List.getElem?_set_self',
          List.getElem?_eq_getElem hres]
      simp only [List.foldl_cons, ih _ (hlen ▸ hres), hset, List.map_cons,
        List.prod_cons, mul_assoc]

lemma hpsInner_getD_self (freq : List ℚ) (D : ℕ) (res : List ℚ) (i : ℕ)
    (hres : i < res.length) :
    (hpsInner freq D res i).getD i 0
      = res.getD i 0 * ((List.range' 2 (D - 1)).map
          fun j => freq.getD (j * i) 0).prod :=
  foldl_set_const_getD_self freq i _ res hres

lemma getD_take (l : List ℚ) (n i : ℕ) (h : i < n) :
    (l.take n).getD i 0 = l.getD i 0 := by
  simp [List.getD_eq_getElem?_getD, List.getElem?_take, h]

/-- Claim C3, amended.  For `D ≤ 1` the function is the identity; for
`D > 1` the output has length `len/D` and entry `i ≥ 1` is the product
`spectrum[i]·spectrum[2i]·…·spectrum[Di]`; entry `0`, however, is passed
through unchanged (`out[0] = spectrum[0]`) because the product loop
starts at `i = 1` — it is not the triple product the spec's test
prescribes.  On the spec's example `[1,2,3,4,5,6]`, `D = 2`, the output
is `[1, 6, 15]` (where `out[0] = 1` happens to coincide with
`1·1·1`). -/
theorem c3_hps_amended (freq : List ℚ) (D i : ℕ) (hD : 1 < D)
    (hi1 : 1 ≤ i) (hiL : i < freq.length / D) :
    (∀ (f' : List ℚ) (d : ℕ), d ≤ 1 →
        frequency_to_harmonic_product_spectrum f' d = f') ∧
    (frequency_to_harmonic_product_spectrum freq D).length
        = freq.length / D ∧
    (frequency_to_harmonic_product_spectrum freq D).getD 0 0
        = freq.getD 0 0 ∧
    (frequency_to_harmonic_product_spectrum freq D).getD i 0
        = ((List.range' 1 D).map fun j => freq.getD (j * i) 0).prod := by
  have hD' : ¬ D ≤ 1 := by omega
  set L := freq.length / D with hL
  have hLlen : L ≤ freq.length := Nat.div_le_self _ _
  have htake : (freq.take L).length = L := by
    simp [List.length_take, Nat.min_eq_left hLlen]
  have hunfold : frequency_to_harmonic_product_spectrum freq D
      = hpsLoop freq D (freq.take L) := by
    simp [frequency_to_harmonic_product_spectrum, hD', hL]
  refine ⟨fun f' d hd => by simp [frequency_to_harmonic_product_spectrum, hd],
    ?_, ?_, ?_⟩
  · rw [hunfold]
    simp [hpsLoop, foldl_hpsInner_length, htake]
  · rw [hunfold]
    have h0 : (0 : ℕ) ∉ List.range' 1 ((freq.take L).length - 1) := by
      intro hmem
      rw [List.mem_range'] at hmem
      omega
    rw [hpsLoop, foldl_hpsInner_getD_ne freq D _ 0 h0]
    exact getD_take freq L 0 (by omega)
  · rw [hunfold, hpsLoop, htake]
    -- split the iteration list at the bar index `i`
    have hsplit : List.range' 1 (L - 1)
        = List.range' 1 (i - 1) ++ i :: List.range' (i + 1) (L - 1 - i) := by
      have h1 : List.range' 1 (i - 1) ++ List.range' (1 + 1 * (i - 1)) (L - i)
          = List.range' 1 ((L - i) + (i - 1)) := List.range'_append 1 (i - 1) (L - i) 1
      have h2 : (1 : ℕ) + 1 * (i - 1) = i := by omega
      have h3 : (L - i) + (i - 1) = L - 1 := by omega
      have h4 : List.range' i (L - i) = i :: List.range' (i + 1) (L - 1 - i) := by
        have h5 : L - i = (L - 1 - i) + 1 := by omega
        rw [h5, List.range'_succ]
      rw [h2, h3, h4] at h1
      exact h1.symm
    rw [hsplit, List.foldl_append, List.foldl_cons]
    have hnotmem : i ∉ List.range' (i + 1) (L - 1 - i) := by
      intro hmem
      rw [List.mem_range'] at hmem
      omega
    rw [foldl_hpsInner_getD_ne freq D _ i hnotmem]
    have hlen1 : ((List.range' 1 (i - 1)).foldl (hpsInner freq D)
        (freq.take L)).length = L := by
      rw [foldl_hpsInner_length, htake]
    have hnotmem1 : i ∉ List.range' 1 (i - 1) := by
      intro hmem
      rw [List.mem_range'] at hmem
      omega
    rw [hpsInner_getD_self freq D _ i (by omega),
      foldl_hpsInner_getD_ne freq D _ i hnotmem1,
      getD_take freq L i (by omega)]
    have hrange : List.range' 1 D = 1 :: List.range' 2 (D - 1) := by
      have h5 : D = (D - 1) + 1 := by omega
      rw [h5, List.range'_succ]
      simp
    rw [hrange, List.map_cons, List.prod_cons, one_mul]

/-- Witness for `c3_hps_amended` at the spec's own example input. -/
theorem c3_hps_amended_witness :
    (frequency_to_harmonic_product_spectrum [1, 2, 3, 4, 5, 6] 2).getD 1 0
      = ((List.range' 1 2).map
          fun j => ([1, 2, 3, 4, 5, 6] : List ℚ).getD (j * 1) 0).prod :=
  (c3_hps_amended [1, 2, 3, 4, 5, 6] 2 1 (by norm_num) (by norm_num)
    (by norm_num)).2.2.2

/-- Counterexample to claim C3 as stated: on `[2,2,2,2,2,2]` with `D = 2`
the code's entry 0 is `2` (passed through), not the claimed triple
product `2·2·2 = 8`.  (The full output is `[2, 4, 4]`.) -/
theorem c3_counterexample :
    frequency_to_harmonic_product_spectrum [2, 2, 2, 2, 2, 2] 2 = [2, 4, 4] ∧
    ¬ (frequency_to_harmonic_product_spectrum [2, 2, 2, 2, 2, 2] 2).getD 0 0
        = ([2, 2, 2, 2, 2, 2] : List ℚ).getD 0 0
          * ([2, 2, 2, 2, 2, 2] : List ℚ).getD 0 0
          * ([2, 2, 2, 2, 2, 2] : List ℚ).getD 0 0 := by
  have h : frequency_to_harmonic_product_spectrum [2, 2, 2, 2, 2, 2] 2
      = [2, 4, 4] := by
    norm_num [frequency_to_harmonic_product_spectrum, hpsLoop, hpsInner,
      List.range', List.getD]
  refine ⟨h, ?_⟩
  rw [h]
  norm_num [List.getD]

/-! ### Claim C7: normalization of the smoothed bars -/

/-- The epsilon-floored maximum from `Visualiser::draw_fft`
(src/visualiser.rs line 87) and `run_bar_visualiser` (src/main.rs
line 336): `smoothed.iter().cloned().fold(1e-6, f32::max)`.  The `f32`
literal `1e-6` is modelled by the decimal it denotes; every statement
below only uses that it is positive. -/
def maxBarVal (bars : List ℚ) : ℚ := bars.foldl max (1 / 1000000)

/-- The normalization map from src/visualiser.rs line 88 / src/main.rs
line 337: each bar is divided by the epsilon-floored maximum. -/
def normaliseBars (bars : List ℚ) : List ℚ :=
  bars.map fun m => m / maxBarVal bars

lemma foldl_max_init_le (l : List ℚ) : ∀ a : ℚ, a ≤ l.foldl max a := by
  induction l with
  | nil => intro a; exact le_refl a
  | cons x l ih =>
      intro a
      simp only [List.foldl_cons]
      exact le_trans (le_max_left a x) (ih (max a x))

lemma foldl_max_mem_le (l : List ℚ) : ∀ a : ℚ, ∀ x ∈ l, x ≤ l.foldl max a := by
  induction l with
  | nil => intro a x hx; cases hx
  | cons y l ih =>
      intro a x hx
      simp only [List.foldl_cons]
      rcases List.mem_cons.1 hx with h | h
      · rw [h]
        exact le_trans (le_max_right a y) (foldl_max_init_le l (max a y))
      · exact ih (max a y) x h

/-- Claim C7.  For a smoothed bar vector with non-negative entries the
epsilon-floored maximum is strictly positive (so the division is by a
nonzero value — the mechanism that rules out NaN/Inf), every normalized
value lies in `[0, 1]`, and the all-zero vector `[0,0,0]` normalizes to
exactly `[0,0,0]`. -/
theorem c7_normalisation (bars : List ℚ) (h : ∀ x ∈ bars, 0 ≤ x) :
    0 < maxBarVal bars ∧
    (∀ y ∈ normaliseBars bars, 0 ≤ y ∧ y ≤ 1) ∧
    (bars = [0, 0, 0] → normaliseBars bars = [0, 0, 0]) := by
  have hpos : 0 < maxBarVal bars :=
    lt_of_lt_of_le (by norm_num) (foldl_max_init_le bars (1 / 1000000))
  refine ⟨hpos, ?_, ?_⟩
  · intro y hy
    rcases List.mem_map.1 hy with ⟨x, hx, rfl⟩
    constructor
    · exact div_nonneg (h x hx) (le_of_lt hpos)
    · exact (div_le_one hpos).2 (foldl_max_mem_le bars (1 / 1000000) x hx)
  · intro hb
    subst hb
    norm_num [normaliseBars, maxBarVal, List.foldl]

/-- Witness for `c7_normalisation`: the spec's silence example. -/
theorem c7_normalisation_witness : normaliseBars [0, 0, 0] = [0, 0, 0] :=
  (c7_normalisation [0, 0, 0] (by norm_num)).2.2 rfl

/-! ### Claim C9: chromagram folding and normalization -/

/-- Loop body of `pitch_spectrum_to_chromagram`
(src/spectra.rs line 136, src/colour.rs line 124):
`chromagram[p % 12] += val`. -/
def chromaAdd (acc : List ℚ) (p : ℕ) (v : ℚ) : List ℚ :=
  acc.set (p % 12) (acc.getD (p % 12) 0 + v)

/-- The enumerate-and-accumulate loop of `pitch_spectrum_to_chromagram`,
carrying the running pitch index `p`. -/
def chromagramRawAux : List ℚ → ℕ → List ℚ → List ℚ
  | acc, _, [] => acc
  | acc, p, v :: rest => chromagramRawAux (chromaAdd acc p v) (p + 1) rest

/-- Embedding of `pitch_spectrum_to_chromagram` from src/spectra.rs lines 132-140
(the non-normalizing variant). -/
def pitch_spectrum_to_chromagram (pitches : List ℚ) : List ℚ :=
  chromagramRawAux (List.replicate 12 0) 0 pitches

/-- The private normalizing `pitch_spectrum_to_chromagram` from
src/colour.rs lines 120-133: same fold, then division by the total only
when the total is strictly positive. -/
def pitch_spectrum_to_chromagramN (pitches : List ℚ) : List ℚ :=
  let ch := pitch_spectrum_to_chromagram pitches
  if 0 < ch.sum then ch.map fun v => v / ch.sum else ch

/-- Specification-side sum: total energy of the pitches whose (running)
index is congruent to `k` modulo 12. -/
def pitchClassSum (k : ℕ) : ℕ → List ℚ → ℚ
  | _, [] => 0
  | p, v :: rest => (if p % 12 = k then v else 0) + pitchClassSum k (p + 1) rest

lemma chromaAdd_length (acc : List ℚ) (p : ℕ) (v : ℚ) :
    (chromaAdd acc p v).length = acc.length := List.length_set _ _ _

lemma chromaAdd_getD (acc : List ℚ) (p : ℕ) (v : ℚ) (k : ℕ) (hk : k < 12)
    (hacc : acc.length = 12) :
    (chromaAdd acc p v).getD k 0
      = acc.getD k 0 + (if p % 12 = k then v else 0) := by
  by_cases h : p % 12 = k
  · subst h
    have hlt : p % 12 < acc.length := by
      rw [hacc]; exact Nat.mod_lt _ (by norm_num)
    simp [chromaAdd, List.getD_eq_getElem?_getD, List.getElem?_set_self',
      List.getElem?_eq_getElem hlt]
  · simp [chromaAdd, List.getD_eq_getElem?_getD, List.getElem?_set_ne h, h]

lemma chromagramRawAux_getD (l : List ℚ) :
    ∀ (acc : List ℚ) (p : ℕ), acc.length = 12 → ∀ k < 12,
      (chromagramRawAux acc p l).getD k 0
        = acc.getD k 0 + pitchClassSum k p l := by
  induction l with
  | nil => intro acc p _ k _; simp [chromagramRawAux, pitchClassSum]
  | cons v rest ih =>
      intro acc p hacc k hk
      have hlen : (chromaAdd acc p v).length = 12 := by
        rw [chromaAdd_length, hacc]
      rw [chromagramRawAux, ih (chromaAdd acc p v) (p + 1) hlen k hk,
        chromaAdd_getD acc p v k hk hacc, pitchClassSum]
      ring

/-- The 128-entry pitch spectrum with energy 1 at MIDI pitches 60 and 72
and zero elsewhere (the spec's Chromagram example). -/
def ps6072 : List ℚ := ((List.replicate 128 0).set 60 1).set 72 1

set_option maxRecDepth 8000 in
set_option maxHeartbeats 1000000 in
/-- Claim C9.  The chromagram fold sums `pitch[p]` into
`chroma[p mod 12]`; the normalizing variant divides only when the total
is strictly positive (so an all-zero input stays all-zero with no
division by zero); and on the spec's example (energy 1 at pitches 60 and
72) the pre-normalization chromagram is `[2,0,…,0]` and the normalized
one is `[1,0,…,0]`. -/
theorem c9_chromagram_fold :
    (∀ (pitches : List ℚ) (k : ℕ), k < 12 →
        (pitch_spectrum_to_chromagram pitches).getD k 0
          = pitchClassSum k 0 pitches) ∧
    (∀ pitches : List ℚ,
        ¬ 0 < (pitch_spectrum_to_chromagram pitches).sum →
        pitch_spectrum_to_chromagramN pitches
          = pitch_spectrum_to_chromagram pitches) ∧
    pitch_spectrum_to_chromagram ps6072
        = [2, 0, 0, 0, 0, 0, 0, 0, 0, 0, 0, 0] ∧
    pitch_spectrum_to_chromagramN ps6072
        = [1, 0, 0, 0, 0, 0, 0, 0, 0, 0, 0, 0] ∧
    pitch_spectrum_to_chromagramN (List.replicate 128 0)
        = List.replicate 12 0 := by
  have hraw : pitch_spectrum_to_chromagram ps6072
      = [2, 0, 0, 0, 0, 0, 0, 0, 0, 0, 0, 0] := by
    norm_num [pitch_spectrum_to_chromagram, ps6072, chromagramRawAux,
      chromaAdd, List.replicate, List.set, List.getD]
  have hzero : pitch_spectrum_to_chromagram (List.replicate 128 0)
      = List.replicate 12 0 := by
    norm_num [pitch_spectrum_to_chromagram, chromagramRawAux, chromaAdd,
      List.replicate, List.set, List.getD]
  refine ⟨?_, ?_, hraw, ?_, ?_⟩
  · intro pitches k hk
    have h12 : (List.replicate 12 (0 : ℚ)).length = 12 := by simp
    rw [pitch_spectrum_to_chromagram,
      chromagramRawAux_getD pitches (List.replicate 12 0) 0 h12 k hk,
      List.getD_eq_getElem?_getD,
      List.getElem?_getD_replicate_default_eq, zero_add]
  · intro pitches hsum
    simp [pitch_spectrum_to_chromagramN, hsum]
  · rw [pitch_spectrum_to_chromagramN, hraw]
    norm_num
  · rw [pitch_spectrum_to_chromagramN, hzero]
    norm_num [List.replicate]

/-- Witness for `c9_chromagram_fold`: pitch class 0 of the spec's
example equals the class-0 sum. -/
theorem c9_chromagram_fold_witness :
    (pitch_spectrum_to_chromagram ps6072).getD 0 0
      = pitchClassSum 0 0 ps6072 :=
  c9_chromagram_fold.1 ps6072 0 (by norm_num)

/-! ### Claim C10: top-N index selection and note labels -/

/-- One item of `get_n_largest_indices`'s outer loop
(src/spectra.rs lines 11-25): scan the top-N slots for the first one the
new value beats, shift the tail down one slot (dropping the last) and
insert the value and its index there. -/
def insertTop (value : ℚ) (index : ℕ) : List ℚ → List ℕ → List ℚ × List ℕ
  | v :: vs, ix :: ixs =>
      if v < value then
        ((value :: v :: vs).dropLast, (index :: ix :: ixs).dropLast)
      else
        let r := insertTop value index vs ixs
        (v :: r.1, ix :: r.2)
  | vs, ixs => (vs, ixs)

/-- Embedding of `get_n_largest_indices` from src/spectra.rs lines 7-28: slots start
as `values = [0.0; n]`, `indices = [items.len(); n]`, and every
enumerated item is offered to the slots in order. -/
def get_n_largest_indices (items : List ℚ) (n : ℕ) : List ℕ :=
  (items.enum.foldl (fun st iv => insertTop iv.2 iv.1 st.1 st.2)
    (List.replicate n 0, List.replicate n items.length)).2

/-- Embedding of `chroma_index_to_note` from src/spectra.rs lines 30-46. -/
def chroma_index_to_note (index : ℕ) : String :=
  match index with
  | 0 => "C"
  | 1 => "C#/Db"
  | 2 => "D"
  | 3 => "D#/Eb"
  | 4 => "E"
  | 5 => "F"
  | 6 => "F#/Gb"
  | 7 => "G"
  | 8 => "G#/Ab"
  | 9 => "A"
  | 10 => "A#/Bb"
  | 11 => "B"
  | _ => "UNK"

lemma insertTop_lengths (value : ℚ) (index : ℕ) :
    ∀ (vs : List ℚ) (ixs : List ℕ),
      (insertTop value index vs ixs).1.length = vs.length ∧
      (insertTop value index vs ixs).2.length = ixs.length := by
  intro vs
  induction vs with
  | nil => intro ixs; simp [insertTop]
  | cons v vs ih =>
      intro ixs
      cases ixs with
      | nil => simp [insertTop]
      | cons ix ixs =>
          by_cases h : v < value
          · simp [insertTop, h, List.length_dropLast]
          · simpa [insertTop, h] using ih ixs

lemma insertTop_mem_snd (value : ℚ) (index : ℕ) :
    ∀ (vs : List ℚ) (ixs : List ℕ) (x : ℕ),
      x ∈ (insertTop value index vs ixs).2 → x = index ∨ x ∈ ixs := by
  intro vs
  induction vs with
  | nil => intro ixs x hx; right; simpa [insertTop] using hx
  | cons v vs ih =>
      intro ixs x hx
      cases ixs with
      | nil => right; simpa [insertTop] using hx
      | cons ix ixs =>
          by_cases h : v < value
          · have hx' : x ∈ index :: ix :: ixs :=
              (List.dropLast_sublist (index :: ix :: ixs)).subset
                (by simpa [insertTop, h] using hx)
            rcases List.mem_cons.1 hx' with h1 | h1
            · exact Or.inl h1
            · exact Or.inr h1
          · simp only [insertTop, if_neg h] at hx
            rcases List.mem_cons.1 hx with h1 | h1
            · exact Or.inr (h1 ▸ List.mem_cons_self ix ixs)
            · rcases ih ixs x h1 with h2 | h2
              · exact Or.inl h2
              · exact Or.inr (List.mem_cons_of_mem _ h2)

lemma insertTop_fst_nonneg (value : ℚ) (index : ℕ) :
    ∀ (vs : List ℚ) (ixs : List ℕ), (∀ x ∈ vs, 0 ≤ x) →
      ∀ x ∈ (insertTop value index vs ixs).1, 0 ≤ x := by
  intro vs
  induction vs with
  | nil => intro ixs _ x hx; simp [insertTop] at hx
  | cons v vs ih =>
      intro ixs hvs x hx
      cases ixs with
      | nil => exact hvs x (by simpa [insertTop] using hx)
      | cons ix ixs =>
          by_cases h : v < value
          · have hx' : x ∈ value :: v :: vs :=
              (List.dropLast_sublist (value :: v :: vs)).subset
                (by simpa [insertTop, h] using hx)
            rcases List.mem_cons.1 hx' with h1 | h1
            · have h0 : 0 ≤ v := hvs v (List.mem_cons_self v vs)
              exact h1 ▸ le_of_lt (lt_of_le_of_lt h0 h)
            · exact hvs x h1
          · simp only [insertTop, if_neg h] at hx
            rcases List.mem_cons.1 hx with h1 | h1
            · exact h1 ▸ hvs v (List.mem_cons_self v vs)
            · exact ih ixs (fun y hy => hvs y (List.mem_cons_of_mem _ hy)) x h1

lemma insertTop_nonpos (value : ℚ) (index : ℕ) (hv : value ≤ 0) :
    ∀ (vs : List ℚ) (ixs : List ℕ), (∀ x ∈ vs, 0 ≤ x) →
      insertTop value index vs ixs = (vs, ixs) := by
  intro vs
  induction vs with
  | nil => intro ixs _; cases ixs <;> simp [insertTop]
  | cons v vs ih =>
      intro ixs hvs
      cases ixs with
      | nil => simp [insertTop]
      | cons ix ixs =>
          have h : ¬ v < value :=
            not_lt.2 (le_trans hv (hvs v (List.mem_cons_self v vs)))
          simp [insertTop, h,
            ih ixs (fun y hy => hvs y (List.mem_cons_of_mem _ hy))]

lemma count_dropLast_ge (l : List ℕ) (a : ℕ) :
    l.count a ≤ l.dropLast.count a + 1 := by
  induction l with
  | nil => simp
  | cons x l ih =>
      cases l with
      | nil => simp [List.count_cons]; split <;> omega
      | cons y l =>
          have hd : (x :: y :: l).dropLast = x :: (y :: l).dropLast := rfl
          rw [hd]
          by_cases h : a = x
          · subst h
            rw [List.count_cons_self, List.count_cons_self]
            omega
          · rw [List.count_cons_of_ne h, List.count_cons_of_ne h]
            omega

lemma insertTop_count_snd (value : ℚ) (index L : ℕ) :
    ∀ (vs : List ℚ) (ixs : List ℕ),
      ixs.count L ≤ (insertTop value index vs ixs).2.count L + 1 := by
  intro vs
  induction vs with
  | nil => intro ixs; simp [insertTop]
  | cons v vs ih =>
      intro ixs
      cases ixs with
      | nil => simp [insertTop]
      | cons ix ixs =>
          by_cases h : v < value
          · have h1 : (ix :: ixs).count L
                ≤ ((index :: ix :: ixs).dropLast).count L + 1 := by
              have hd : (index :: ix :: ixs).dropLast
                  = index :: (ix :: ixs).dropLast := rfl
              have h2 := count_dropLast_ge (ix :: ixs) L
              rw [hd]
              by_cases h3 : L = index
              · subst h3
                rw [List.count_cons_self]
                omega
              · rw [List.count_cons_of_ne h3]
                omega
            simpa [insertTop, h] using h1
          · have h1 := ih ixs
            simp only [insertTop, if_neg h, List.count_cons]
            split <;> omega

lemma foldl_insertTop_invariant (L : ℕ) (l : List (ℕ × ℚ)) :
    ∀ st : List ℚ × List ℕ, (∀ x ∈ st.1, 0 ≤ x) →
      (l.foldl (fun st iv => insertTop iv.2 iv.1 st.1 st.2) st).1.length
          = st.1.length ∧
      (l.foldl (fun st iv => insertTop iv.2 iv.1 st.1 st.2) st).2.length
          = st.2.length ∧
      (∀ x ∈ (l.foldl (fun st iv => insertTop iv.2 iv.1 st.1 st.2) st).2,
          (∃ p ∈ l, x = p.1) ∨ x ∈ st.2) ∧
      st.2.count L
        ≤ (l.foldl (fun st iv => insertTop iv.2 iv.1 st.1 st.2) st).2.count L
          + l.countP (fun p => decide (0 < p.2)) := by
  induction l with
  | nil => intro st _; exact ⟨rfl, rfl, fun x hx => Or.inr hx, by simp⟩
  | cons iv l ih =>
      intro st hst
      have hlen := insertTop_lengths iv.2 iv.1 st.1 st.2
      have hnn := insertTop_fst_nonneg iv.2 iv.1 st.1 st.2 hst
      have ihx := ih (insertTop iv.2 iv.1 st.1 st.2) hnn
      simp only [List.foldl_cons]
      refine ⟨ihx.1.trans hlen.1, ihx.2.1.trans hlen.2, ?_, ?_⟩
      · intro x hx
        rcases ihx.2.2.1 x hx with h1 | h1
        · rcases h1 with ⟨p, hp, hxp⟩
          exact Or.inl ⟨p, List.mem_cons_of_mem _ hp, hxp⟩
        · rcases insertTop_mem_snd iv.2 iv.1 st.1 st.2 x h1 with h2 | h2
          · exact Or.inl ⟨iv, List.mem_cons_self iv l, h2⟩
          · exact Or.inr h2
      · by_cases hv : 0 < iv.2
        · have hc : (iv :: l).countP (fun p => decide (0 < p.2))
              = l.countP (fun p => decide (0 < p.2)) + 1 := by
            simp [List.countP_cons, hv]
          have h1 := insertTop_count_snd iv.2 iv.1 L st.1 st.2
          have h2 := ihx.2.2.2
          rw [hc]
          omega
        · have hc : (iv :: l).countP (fun p => decide (0 < p.2))
              = l.countP (fun p => decide (0 < p.2)) := by
            simp [List.countP_cons, hv]
          have heq := insertTop_nonpos iv.2 iv.1 (not_lt.1 hv) st.1 st.2 hst
          have h2 := ihx.2.2.2
          rw [heq] at h2
          have h2' : st.2.count L
              ≤ ((l.foldl (fun st iv => insertTop iv.2 iv.1 st.1 st.2)
                  (st.1, st.2)).2.count L)
                + l.countP (fun p => decide (0 < p.2)) := h2
          rw [hc, heq]
          exact h2'

lemma enum_countP_pos (items : List ℚ) :
    items.enum.countP (fun p => decide (0 < p.2))
      = items.countP (fun v => decide (0 < v)) := by
  have h : items.enum.map Prod.snd = items := List.enum_map_snd items
  calc items.enum.countP (fun p => decide (0 < p.2))
      = (items.enum.map Prod.snd).countP (fun v => decide (0 < v)) := by
        rw [List.countP_map]; rfl
    _ = items.countP (fun v => decide (0 < v)) := by rw [h]

lemma mem_enum_fst_lt (items : List ℚ) (p : ℕ × ℚ) (hp : p ∈ items.enum) :
    p.1 < items.length := by
  have := List.mem_enumFrom hp
  omega

/-- Claim C10.  `get_n_largest_indices` returns exactly `n` indices, each
either a valid index into `items` or the sentinel `items.length`; at
least `n − (number of strictly positive entries)` slots still hold the
sentinel (so with fewer than `n` positive entries some slot keeps it);
and `chroma_index_to_note` maps every out-of-range index — in particular
the sentinel `12` of a 12-entry chromagram — to `"UNK"`. -/
theorem c10_top_n (items : List ℚ) (n : ℕ) (hn : 1 ≤ n) :
    (get_n_largest_indices items n).length = n ∧
    (∀ ix ∈ get_n_largest_indices items n,
        ix < items.length ∨ ix = items.length) ∧
    n ≤ (get_n_largest_indices items n).count items.length
        + items.countP (fun v => decide (0 < v)) ∧
    (∀ i : ℕ, 12 ≤ i → chroma_index_to_note i = "UNK") := by
  have hst : ∀ x ∈ (List.replicate n (0 : ℚ), List.replicate n
      items.length).1, (0 : ℚ) ≤ x := by
    intro x hx
    exact (List.eq_of_mem_replicate hx).ge
  have h := foldl_insertTop_invariant items.length items.enum
    (List.replicate n 0, List.replicate n items.length) hst
  refine ⟨?_, ?_, ?_, ?_⟩
  · simpa [get_n_largest_indices] using h.2.1
  · intro ix hix
    rcases h.2.2.1 ix (by simpa [get_n_largest_indices] using hix)
        with h1 | h1
    · rcases h1 with ⟨p, hp, hxp⟩
      exact Or.inl (hxp ▸ mem_enum_fst_lt items p hp)
    · exact Or.inr (List.eq_of_mem_replicate h1)
  · have h2 := h.2.2.2
    rw [List.count_replicate_self, enum_countP_pos] at h2
    simpa [get_n_largest_indices] using h2
  · intro i hi
    match i, hi with
    | (k + 12), _ => rfl

/-- Witness for `c10_top_n`: an all-zero 12-entry chromagram with
`n = 3` keeps all three sentinel slots. -/
theorem c10_top_n_witness :
    3 ≤ (get_n_largest_indices (List.replicate 12 (0 : ℚ)) 3).count
          (List.replicate 12 (0 : ℚ)).length
        + (List.replicate 12 (0 : ℚ)).countP (fun v => decide (0 < v)) :=
  (c10_top_n (List.replicate 12 (0 : ℚ)) 3 (by norm_num)).2.2.1

/-! ### Claim C2: LogMusicRange range construction (src/bars.rs lines 6-70,
duplicated in src/main.rs lines 21-85) -/

/-- The shortfall-distribution `while` loop of `log_ranges`
(src/bars.rs lines 32-36): while `bin_sum < num_bars`, increment
`bins_per_range[index]` and both counters.  `bpr[index]` panics when
`index` runs past the end of the six-element array; `none` models that
panic. -/
def whileFill (numBars : ℕ) (bpr : List ℕ) (binSum index : ℕ) :
    Option (List ℕ) :=
  if h : binSum < numBars then
    if hidx : index < bpr.length then
      whileFill numBars (bpr.set index (bpr.getD index 0 + 1)) (binSum + 1)
        (index + 1)
    else none
  else some bpr
termination_by numBars - binSum
decreasing_by omega

/-- The clamping loop of `log_ranges` (src/bars.rs lines 50-62):
`bin_start = max(computed_bin_start, last_bin_end)` and
`bin_end = max(bin_start + 1, computed_bin_end)`, threading
`last_bin_end` through. -/
def clampRanges (lastEnd : ℕ) : List (ℕ × ℕ) → List (ℕ × ℕ)
  | [] => []
  | (cs, ce) :: rest =>
      (max cs lastEnd, max (max cs lastEnd + 1) ce)
        :: clampRanges (max (max cs lastEnd + 1) ce) rest

/-- The per-band, per-bar raw bin boundaries of `log_ranges`
(src/bars.rs lines 42-55), flattened in iteration order.  The
floating-point computation of `computed_bin_start`/`computed_bin_end`
(log10 interpolation, powf, round) is abstracted as the parameter `f`:
`f i j` is the pair for bar `j` of band `i`.  Every theorem below holds
for all values `f` could take. -/
def rawBounds (f : ℕ → ℕ → ℕ × ℕ) (bpr : List ℕ) : List (ℕ × ℕ) :=
  (bpr.enum.map fun ib => (List.range ib.2).map (f ib.1)).flatten

/-- Embedding of `log_ranges` from src/bars.rs lines 6-70: distribute the flooring
shortfall over `bins_per_range`, then clamp the raw boundaries.  `bpr0`
abstracts the floating-point seed `⌊num_bars · weightᵢ⌋` (six values) and
`f` the raw bin boundaries; `none` models the while-loop's out-of-bounds
panic. -/
def log_ranges (f : ℕ → ℕ → ℕ × ℕ) (bpr0 : List ℕ) (num_bars : ℕ) :
    Option (List (ℕ × ℕ)) :=
  (whileFill num_bars bpr0 bpr0.sum 0).map fun bpr =>
    clampRanges 0 (rawBounds f bpr)

lemma sum_set_getD_succ (l : List ℕ) :
    ∀ i, i < l.length → (l.set i (l.getD i 0 + 1)).sum = l.sum + 1 := by
  induction l with
  | nil => intro i hi; simp at hi
  | cons x l ih =>
      intro i hi
      cases i with
      | zero => simp [List.getD_cons_zero, List.sum_cons]; omega
      | succ i =>
          have hi' : i < l.length := by simpa using hi
          simp only [List.set, List.getD_cons_succ, List.sum_cons, ih i hi']
          omega

lemma whileFill_spec (numBars : ℕ) :
    ∀ (k binSum index : ℕ) (bpr : List ℕ),
      numBars - binSum = k →
      binSum ≤ numBars →
      binSum = bpr.sum →
      numBars - binSum ≤ bpr.length - index →
      ∃ bpr', whileFill numBars bpr binSum index = some bpr' ∧
        bpr'.length = bpr.length ∧ bpr'.sum = numBars := by
  intro k
  induction k with
  | zero =>
      intro binSum index bpr hk hle hsum _
      have hbs : ¬ binSum < numBars := by omega
      refine ⟨bpr, ?_, rfl, by omega⟩
      rw [whileFill]
      simp [hbs]
  | succ k ih =>
      intro binSum index bpr hk hle hsum hroom
      have hlt : binSum < numBars := by omega
      have hidx : index < bpr.length := by omega
      have hset := sum_set_getD_succ bpr index hidx
      have hlen : (bpr.set index (bpr.getD index 0 + 1)).length = bpr.length :=
        List.length_set _ _ _
      obtain ⟨bpr', heq, hplen, hpsum⟩ :=
        ih (binSum + 1) (index + 1) (bpr.set index (bpr.getD index 0 + 1))
          (by omega) (by omega) (by rw [hset]; omega) (by rw [hlen]; omega)
      refine ⟨bpr', ?_, hplen.trans hlen, hpsum⟩
      rw [whileFill]
      rw [dif_pos hlt, dif_pos hidx]
      exact heq

lemma clampRanges_length :
    ∀ (l : List (ℕ × ℕ)) (le : ℕ), (clampRanges le l).length = l.length := by
  intro l
  induction l with
  | nil => intro le; rfl
  | cons p rest ih =>
      intro le
      obtain ⟨cs, ce⟩ := p
      simp [clampRanges, ih]

lemma clampRanges_props :
    ∀ (l : List (ℕ × ℕ)) (le : ℕ),
      (∀ p ∈ clampRanges le l, le ≤ p.1 ∧ p.1 < p.2) ∧
      (clampRanges le l).Chain' fun a b => a.2 ≤ b.1 ∧ a.1 < b.1 := by
  intro l
  induction l with
  | nil => intro le; exact ⟨by simp [clampRanges], by simp [clampRanges]⟩
  | cons p rest ih =>
      intro le
      obtain ⟨cs, ce⟩ := p
      have hs : le ≤ max cs le := le_max_right cs le
      have hse : max cs le < max (max cs le + 1) ce :=
        lt_of_lt_of_le (Nat.lt_succ_self _) (le_max_left _ ce)
      constructor
      · intro q hq
        rcases List.mem_cons.1 hq with rfl | hq
        · exact ⟨hs, hse⟩
        · have h1 := (ih (max (max cs le + 1) ce)).1 q hq
          exact ⟨le_trans hs (le_trans (le_of_lt hse) h1.1), h1.2⟩
      · rw [clampRanges, List.chain'_cons']
        refine ⟨?_, (ih (max (max cs le + 1) ce)).2⟩
        intro q hq
        have hq' := (ih (max (max cs le + 1) ce)).1 q (List.mem_of_mem_head? hq)
        exact ⟨hq'.1, lt_of_lt_of_le hse hq'.1⟩

lemma rawBounds_length (f : ℕ → ℕ → ℕ × ℕ) (bpr : List ℕ) :
    (rawBounds f bpr).length = bpr.sum := by
  rw [rawBounds, List.length_flatten, List.map_map]
  have h1 : (List.length ∘ fun ib : ℕ × ℕ => (List.range ib.2).map (f ib.1))
      = fun ib : ℕ × ℕ => ib.2 := by
    funext ib
    simp
  rw [h1]
  exact congrArg List.sum (List.enum_map_snd bpr)

/-- Claim C2, amended.  For every requested bar count `n ≥ 1`, every
value of the `f32` seed `bpr0` (the six floored weight products) that
satisfies the flooring bracket `Σbpr0 ≤ n ≤ Σbpr0 + 6`, and every value
of the raw bin boundaries (`f`), `log_ranges` returns a RangeSet with
exactly `n` ranges, every range of width at least 1, each range's start
at least the previous range's end, and non-decreasing starts.  Real
arithmetic always satisfies the bracket (the six weights sum to 1), and
so does the `f32` seed whenever the cast of `n` and the six products
round without damage (in particular all `n ≤ 2^20`); but not for every
`n`: see `c2_counterexample`, where the `f32` seed of `n = 16777299`
sums to `n + 1` and the code emits `n + 1` ranges. -/
theorem c2_log_music_ranges (n : ℕ) (bpr0 : List ℕ) (f : ℕ → ℕ → ℕ × ℕ)
    (hn : 1 ≤ n) (hlen : bpr0.length = 6)
    (hlow : bpr0.sum ≤ n) (hhigh : n ≤ bpr0.sum + 6) :
    (log_ranges f bpr0 n).isSome = true ∧
    ∀ rs, log_ranges f bpr0 n = some rs →
      rs.length = n ∧
      (∀ p ∈ rs, p.1 < p.2) ∧
      rs.Chain' (fun a b => a.2 ≤ b.1) ∧
      rs.Chain' (fun a b => a.1 ≤ b.1) := by
  obtain ⟨bpr', heq, hplen, hpsum⟩ :=
    whileFill_spec n (n - bpr0.sum) bpr0.sum 0 bpr0 rfl hlow rfl
      (by omega)
  have hlr : log_ranges f bpr0 n = some (clampRanges 0 (rawBounds f bpr')) := by
    rw [log_ranges, heq]
    rfl
  constructor
  · rw [hlr]; rfl
  · intro rs hrs
    rw [hlr] at hrs
    obtain rfl := Option.some.inj hrs
    have hprops := clampRanges_props (rawBounds f bpr') 0
    refine ⟨?_, ?_, ?_, ?_⟩
    · rw [clampRanges_length, rawBounds_length, hpsum]
    · exact fun p hp => (hprops.1 p hp).2
    · exact hprops.2.imp fun a b hab => hab.1
    · exact hprops.2.imp fun a b hab => le_of_lt hab.2

/-- Witness for `c2_log_music_ranges`: `n = 10` with seed
`[0, 1, 1, 2, 2, 1]` (the exact values of `⌊10·wᵢ⌋`) and any boundary
function. -/
theorem c2_log_music_ranges_witness :
    (log_ranges (fun _ _ => (0, 0)) [0, 1, 1, 2, 2, 1] 10).isSome = true :=
  (c2_log_music_ranges 10 [0, 1, 1, 2, 2, 1] (fun _ _ => (0, 0))
    (by norm_num) (by norm_num) (by decide) (by decide)).1

/-! ### Claim C4: GammaCorrected range construction (src/bars.rs
lines 73-100) -/

/-- The boundary-emitting loop of `gamma_corrected_ranges`
(src/bars.rs lines 86-97): for each bin index `i` compute the bar index
`bIdx i`; whenever it differs from the running `start`, push
`(start, bIdx i)` and continue with `start = bIdx i`.  The
floating-point bar index `(norm_freq.powf(1/gamma) * num_bins) as usize`
is abstracted as the parameter `bIdx`; the theorems below hold for every
value it could take. -/
def gammaLoop (bIdx : ℕ → ℕ) : List ℕ → ℕ → List (ℕ × ℕ)
  | [], _ => []
  | i :: rest, start =>
      if bIdx i ≠ start then (start, bIdx i) :: gammaLoop bIdx rest (bIdx i)
      else gammaLoop bIdx rest start

/-- Embedding of `gamma_corrected_ranges` from src/bars.rs lines 73-100, parametric
in the bar-index function. -/
def gamma_corrected_ranges (bIdx : ℕ → ℕ) (fft_size : ℕ) : List (ℕ × ℕ) :=
  gammaLoop bIdx (List.range fft_size) 0

/-- The bar-index computation of src/bars.rs line 90 in exact rational
arithmetic: `⌊(i·freq_per_bin / nyquist) · num_bins⌋` (the `as usize`
cast truncates, which on these non-negative values is the floor).  For
`gamma = 1` the source's `powf(…, 1.0/gamma)` is `powf(x, 1.0) = x`
exactly in IEEE 754, and with `sample_rate = fft_size = 8`,
`num_bins = 8` every intermediate `f32` operation is exact, so this
rational model computes exactly what the `f32` code computes there. -/
def gammaBarIndexQ (num_bins sample_rate fft_size i : ℕ) : ℕ :=
  (Int.floor ((((i : ℚ) * ((sample_rate : ℚ) / (fft_size : ℚ)))
      / ((sample_rate : ℚ) / 2)) * (num_bins : ℚ))).toNat

/-- Embedding of `gamma_corrected_ranges` at `gamma = 1`, with the exact rational
bar-index function. -/
def gamma_corrected_ranges_gammaOne (num_bins sample_rate fft_size : ℕ) :
    List (ℕ × ℕ) :=
  gamma_corrected_ranges (gammaBarIndexQ num_bins sample_rate fft_size)
    fft_size

lemma destutter_prime_eq_cons (R : ℕ → ℕ → Prop) [DecidableRel R] :
    ∀ (l : List ℕ) (a : ℕ), ∃ t, List.destutter' R a l = a :: t := by
  intro l
  induction l with
  | nil => intro a; exact ⟨[], rfl⟩
  | cons b l ih =>
      intro a
      rw [List.destutter'_cons]
      by_cases h : R a b
      · rw [if_pos h]
        exact ⟨List.destutter' R b l, rfl⟩
      · rw [if_neg h]
        exact ih a

lemma gammaLoop_eq_destutter (bIdx : ℕ → ℕ) :
    ∀ (l : List ℕ) (start : ℕ),
      gammaLoop bIdx l start
        = (List.destutter' (· ≠ ·) start (l.map bIdx)).zip
            (List.destutter' (· ≠ ·) start (l.map bIdx)).tail := by
  intro l
  induction l with
  | nil => intro start; simp [gammaLoop, List.destutter'_nil]
  | cons i rest ih =>
      intro start
      rw [List.map_cons]
      by_cases h : bIdx i ≠ start
      · have hR : start ≠ bIdx i := Ne.symm h
        rw [List.destutter'_cons, if_pos hR]
        obtain ⟨t, ht⟩ :=
          destutter_prime_eq_cons (· ≠ ·) (rest.map bIdx) (bIdx i)
        rw [ht]
        simp only [gammaLoop, if_pos h, List.zip_cons_cons, List.tail_cons]
        rw [ih (bIdx i), ht]
        rfl
      · push_neg at h
        rw [List.destutter'_cons, if_neg (not_ne_iff.2 h.symm)]
        simp only [gammaLoop, if_neg (not_ne_iff.2 h)]
        exact ih start

lemma gammaLoop_props (bIdx : ℕ → ℕ) (hmono : Monotone bIdx) :
    ∀ (l : List ℕ) (start : ℕ),
      l.Pairwise (· ≤ ·) →
      (∀ j ∈ l, start ≤ bIdx j) →
      (∀ p ∈ gammaLoop bIdx l start, start ≤ p.1 ∧ p.1 < p.2) ∧
      (gammaLoop bIdx l start).Chain' (fun a b => a.2 = b.1 ∧ a.1 < b.1) ∧
      (∀ p ∈ (gammaLoop bIdx l start).head?, p.1 = start) := by
  intro l
  induction l with
  | nil =>
      intro start _ _
      exact ⟨by simp [gammaLoop], by simp [gammaLoop], by simp [gammaLoop]⟩
  | cons i rest ih =>
      intro start hpw hge
      have hpw' : rest.Pairwise (· ≤ ·) := hpw.of_cons
      have hile : ∀ j ∈ rest, i ≤ j := (List.pairwise_cons.1 hpw).1
      by_cases h : bIdx i ≠ start
      · have hlt : start < bIdx i :=
          lt_of_le_of_ne (hge i (List.mem_cons_self i rest)) (Ne.symm h)
        have hge' : ∀ j ∈ rest, bIdx i ≤ bIdx j :=
          fun j hj => hmono (hile j hj)
        obtain ⟨hmem', hchain', hhead'⟩ := ih (bIdx i) hpw' hge'
        refine ⟨?_, ?_, ?_⟩
        · intro p hp
          simp only [gammaLoop, if_pos h, List.mem_cons] at hp
          rcases hp with rfl | hp
          · exact ⟨le_refl start, hlt⟩
          · have h1 := hmem' p hp
            exact ⟨le_trans (le_of_lt hlt) h1.1, h1.2⟩
        · simp only [gammaLoop, if_pos h]
          rw [List.chain'_cons']
          refine ⟨?_, hchain'⟩
          intro q hq
          have hq1 := hhead' q hq
          exact ⟨hq1.symm, hq1 ▸ hlt⟩
        · simp only [gammaLoop, if_pos h, List.head?_cons]
          intro p hp
          simp only [Option.mem_def, Option.some.injEq] at hp
          rw [← hp]
      · push_neg at h
        have hge'' : ∀ j ∈ rest, start ≤ bIdx j :=
          fun j hj => hge j (List.mem_cons_of_mem i hj)
        obtain ⟨hmem', hchain', hhead'⟩ := ih start hpw' hge''
        have heq : gammaLoop bIdx (i :: rest) start = gammaLoop bIdx rest start := by
          simp only [gammaLoop, if_neg (not_ne_iff.2 h)]
        rw [heq]
        exact ⟨hmem', hchain', hhead'⟩

/-- Claim C4, amended.  For every bar-index function the loop could
compute (monotone, as the composition of the monotone normalized
frequency, `powf` with positive exponent and scaling is), the emitted
ranges have `start < end`, are consecutive (each start equals the
previous end, hence starts strictly increase — ordered and
non-overlapping), and a boundary is emitted exactly where the bar index
changes: the range list is exactly the list of consecutive pairs of the
de-duplicated bar-index trace `0 :: map bIdx [0, …, fftSize-1]`.  The
spec's bound `end ≤ spectrum.length = fftSize/2` is NOT satisfied — the
endpoints are bar-index values, not spectrum-bin indices (see the
counterexample). -/
theorem c4_gamma_ranges_amended (bIdx : ℕ → ℕ) (n : ℕ)
    (hmono : Monotone bIdx) :
    (∀ p ∈ gamma_corrected_ranges bIdx n, p.1 < p.2) ∧
    (gamma_corrected_ranges bIdx n).Chain' (fun a b => a.2 = b.1) ∧
    (gamma_corrected_ranges bIdx n).Chain' (fun a b => a.1 < b.1) ∧
    gamma_corrected_ranges bIdx n
      = (List.destutter (· ≠ ·) (0 :: (List.range n).map bIdx)).zip
          (List.destutter (· ≠ ·) (0 :: (List.range n).map bIdx)).tail := by
  have hpw : (List.range n).Pairwise (· ≤ ·) :=
    (List.pairwise_lt_range n).imp fun h => le_of_lt h
  have hge : ∀ j ∈ List.range n, 0 ≤ bIdx j := fun j _ => Nat.zero_le _
  obtain ⟨hmem, hchain, _⟩ :=
    gammaLoop_props bIdx hmono (List.range n) 0 hpw hge
  refine ⟨fun p hp => (hmem p hp).2, hchain.imp ?_, hchain.imp ?_, ?_⟩
  · intro a b hab
    exact hab.1
  · intro a b hab
    exact hab.2
  rw [List.destutter_cons']
  exact gammaLoop_eq_destutter bIdx (List.range n) 0

/-- Witness for `c4_gamma_ranges_amended` at the monotone bar-index
function `i ↦ 2i` with four bins. -/
theorem c4_gamma_ranges_amended_witness :
    gamma_corrected_ranges (fun i => 2 * i) 4
      = (List.destutter (· ≠ ·) (0 :: (List.range 4).map fun i => 2 * i)).zip
          (List.destutter (· ≠ ·)
            (0 :: (List.range 4).map fun i => 2 * i)).tail :=
  (c4_gamma_ranges_amended (fun i => 2 * i) 4
    (by intro a b h; exact Nat.mul_le_mul_left 2 h)).2.2.2

/-- Counterexample to claim C4 as stated: with `gamma = 1`,
`barCount = 8`, `sampleRate = 8`, `fftSize = 8` (all `f32` operations
exact, `powf(x, 1.0) = x`), the produced ranges run up to `(12, 14)`,
whose endpoints exceed `spectrum.length = fftSize/2 = 4` — the pushed
pairs are bar indices, not spectrum-bin indices. -/
theorem c4_counterexample :
    gamma_corrected_ranges_gammaOne 8 8 8
      = [(0, 2), (2, 4), (4, 6), (6, 8), (8, 10), (10, 12), (12, 14)] ∧
    (12, 14) ∈ gamma_corrected_ranges_gammaOne 8 8 8 ∧
    ¬ ((14 : ℕ) ≤ 8 / 2) := by
  have hb : ∀ i : ℕ, i < 8 → gammaBarIndexQ 8 8 8 i = 2 * i := by
    intro i hi
    interval_cases i <;>
      · rw [gammaBarIndexQ]
        norm_num
        all_goals decide
  have h0 := hb 0 (by norm_num)
  have h1 := hb 1 (by norm_num)
  have h2 := hb 2 (by norm_num)
  have h3 := hb 3 (by norm_num)
  have h4 := hb 4 (by norm_num)
  have h5 := hb 5 (by norm_num)
  have h6 := hb 6 (by norm_num)
  have h7 := hb 7 (by norm_num)
  have hmain : gamma_corrected_ranges_gammaOne 8 8 8
      = [(0, 2), (2, 4), (4, 6), (6, 8), (8, 10), (10, 12), (12, 14)] := by
    rw [gamma_corrected_ranges_gammaOne, gamma_corrected_ranges]
    have hr : List.range 8 = [0, 1, 2, 3, 4, 5, 6, 7] := rfl
    rw [hr]
    simp only [gammaLoop, h0, h1, h2, h3, h4, h5, h6, h7]
    norm_num
  exact ⟨hmain, by rw [hmain]; decide, by decide⟩

/-! ### Claim C6: FourierTransform::compute length handling
(src/spectra.rs lines 48-99) -/

/-- Embedding of `FourierTransform` from src/spectra.rs lines 48-52: the planned FFT
(an external `rustfft` object, modelled as a function on complex
buffers), the fixed size, and the precomputed window coefficients. -/
structure FourierTransform where
  fft : List (ℚ × ℚ) → List (ℚ × ℚ)
  fft_size : ℕ
  window_vec : List ℚ

/-- Model of `rustfft`'s in-place forward FFT for a length-2 plan,
applied to the buffer chunk-wise as `Fft::process` does: the radix-2
butterfly `[a + b, a - b]` on each pair (exact in `f32` on the inputs
used below). -/
def dft2Chunks : List (ℚ × ℚ) → List (ℚ × ℚ)
  | a :: b :: rest =>
      (a.1 + b.1, a.2 + b.2) :: (a.1 - b.1, a.2 - b.2) :: dft2Chunks rest
  | l => l

/-- Embedding of `FourierTransform::compute` from src/spectra.rs lines 78-98.  The
source zips the signal with the window — silently truncating to the
shorter of the two — and never compares `signal.len()` against
`fft_size`; its return type `Vec<f32>` has no error channel.  The only
failure mode is `rustfft`'s `process` assertion
`buffer.len() % fft_len == 0`, a panic (modelled as `none`), not a
reported configuration error.  `c.norm().powf(2.0)` is the squared
magnitude `re² + im²`. -/
def FourierTransform.compute (ft : FourierTransform) (signal : List ℚ) :
    Option (List ℚ) :=
  let complex_samples :=
    (signal.zip ft.window_vec).map fun vw => (vw.1 * vw.2, (0 : ℚ))
  if complex_samples.length % ft.fft_size = 0 then
    let out := ft.fft complex_samples
    some ((out.take (out.length / 2)).map fun c => c.1 ^ 2 + c.2 ^ 2)
  else none

/-- Claim C6.  `compute` on a transform of size `N = 2` silently
produces a spectrum (of the first `N` samples) from a block of length
4 ≠ N instead of failing, and on a block of length 1 ≠ N it panics in
the external FFT (`none`) rather than reporting a configuration error.
The return type has no error channel at all. -/
theorem c6_compute_accepts_mismatched_block (w : List ℚ)
    (hw : w.length = 2) :
    (FourierTransform.compute ⟨dft2Chunks, 2, w⟩ [1, 1, 1, 1]).isSome
        = true ∧
    Option.map List.length
        (FourierTransform.compute ⟨dft2Chunks, 2, w⟩ [1, 1, 1, 1])
      = some 1 ∧
    FourierTransform.compute ⟨dft2Chunks, 2, w⟩ [1] = none := by
  obtain ⟨a, b, rfl⟩ := List.length_eq_two.1 hw
  refine ⟨?_, ?_, rfl⟩
  · simp [FourierTransform.compute]
  · simp [FourierTransform.compute, dft2Chunks]

/-- Witness for `c6_compute_accepts_mismatched_block` at the window
`[0, 0]`. -/
theorem c6_compute_accepts_mismatched_block_witness :
    (FourierTransform.compute ⟨dft2Chunks, 2, [0, 0]⟩ [1, 1, 1, 1]).isSome
        = true ∧
    Option.map List.length
        (FourierTransform.compute ⟨dft2Chunks, 2, [0, 0]⟩ [1, 1, 1, 1])
      = some 1 ∧
    FourierTransform.compute ⟨dft2Chunks, 2, [0, 0]⟩ [1] = none :=
  c6_compute_accepts_mismatched_block [0, 0] rfl

/-! ### Claim C8: ChromagramColour::get_colour (src/colour.rs
lines 44-93) -/

/-- The sector table of `hsv_to_rgb` (src/colour.rs lines 82-90): the
`match h as u32` arms. -/
def hsvSector (k : ℕ) (c x : ℚ) : ℚ × ℚ × ℚ :=
  match k with
  | 0 => (c, x, 0)
  | 1 => (x, c, 0)
  | 2 => (0, c, x)
  | 3 => (0, x, c)
  | 4 => (x, 0, c)
  | 5 => (c, 0, x)
  | _ => (0, 0, 0)

/-- Embedding of `hsv_to_rgb` from src/colour.rs lines 76-93.  `h.rem_euclid(360)` is
`h - 360·⌊h/360⌋`; Rust's `%` on the resulting non-negative sector value
is `x - 2·⌊x/2⌋`; `h as u32` truncates, which on the non-negative sector
value is the floor. -/
def hsv_to_rgb (h s v : ℚ) : ℚ × ℚ × ℚ :=
  let hh := (h - 360 * (Int.floor (h / 360) : ℚ)) / 60
  let c := v * s
  let x := c * (1 - |hh - 2 * (Int.floor (hh / 2) : ℚ) - 1|)
  let m := v - c
  let rgb1 := hsvSector (Int.floor hh).toNat c x
  (rgb1.1 + m, rgb1.2.1 + m, rgb1.2.2 + m)

/-- The chromagram-to-colour body of `ChromagramColour::get_colour`
(src/colour.rs lines 50-70), taking the chromagram already computed from
the spectrum: exponential smoothing of the twelve chroma intensities
(`sf·value + (1-sf)·stored`), then an intensity-weighted sum of the
twelve fixed per-class RGB colours `hsv_to_rgb(i·30°, 1, 1)`.  There is
no hue vector, no `atan2`, and no final HSV conversion of a blended hue
(the impl carries `TODO: Switch to hue vector averaging`). -/
def get_colour_core (smoothing_factor : ℚ)
    (smoothed_chromagram chromagram : List ℚ) : List ℚ × (ℚ × ℚ × ℚ) :=
  let sm := (smoothed_chromagram.zip chromagram).map fun pc =>
    smoothing_factor * pc.2 + (1 - smoothing_factor) * pc.1
  let fc := sm.enum.foldl
    (fun acc iv =>
      (acc.1 + (hsv_to_rgb ((iv.1 : ℚ) * 30) 1 1).1 * iv.2,
        acc.2.1 + (hsv_to_rgb ((iv.1 : ℚ) * 30) 1 1).2.1 * iv.2,
        acc.2.2 + (hsv_to_rgb ((iv.1 : ℚ) * 30) 1 1).2.2 * iv.2))
    ((0 : ℚ), (0 : ℚ), (0 : ℚ))
  (sm, fc)

lemma hsvSector_has_zero (k : ℕ) (x : ℚ) :
    (hsvSector k 1 x).1 = 0 ∨ (hsvSector k 1 x).2.1 = 0 ∨
      (hsvSector k 1 x).2.2 = 0 := by
  rcases k with _ | _ | _ | _ | _ | _ | k <;> simp [hsvSector]

lemma hsv_to_rgb_full_has_zero_component (h : ℚ) :
    (hsv_to_rgb h 1 1).1 = 0 ∨ (hsv_to_rgb h 1 1).2.1 = 0 ∨
      (hsv_to_rgb h 1 1).2.2 = 0 := by
  rw [hsv_to_rgb]
  norm_num
  exact hsvSector_has_zero _ _

/-- The chromagram split evenly between two hues 180° apart: pitch
class 0 (hue 0°) and pitch class 6 (hue 180°). -/
def chromaOpposite : List ℚ :=
  [1/2, 0, 0, 0, 0, 0, 1/2, 0, 0, 0, 0, 0]

/-- Claim C8.  The spec requires blending a chroma-weighted hue vector,
taking `atan2`, and converting the single resulting hue to RGB at full
saturation and value (with a zero-vector default hue).  The code instead
sums the twelve per-class RGB colours weighted by the smoothed
intensities.  On a fresh mapper (`smoothed = 0`) with
`smoothing_factor = 1` and the chromagram split between two opposite
hues, it outputs the grey `(1/2, 1/2, 1/2)` — which is not
`hsv_to_rgb hue 1 1` for any hue whatsoever, since every
full-saturation-and-value colour has a zero component.  (All arithmetic
in this evaluation is exact in `f32`.) -/
theorem c8_rgb_blend_not_hue_vector :
    get_colour_core 1 (List.replicate 12 0) chromaOpposite
        = (chromaOpposite, (1/2, 1/2, 1/2)) ∧
    ∀ hq : ℚ, hsv_to_rgb hq 1 1 ≠ (1/2, 1/2, 1/2) := by
  have hs0 : ∀ c x : ℚ, hsvSector 0 c x = (c, x, 0) := fun c x => rfl
  have hs1 : ∀ c x : ℚ, hsvSector 1 c x = (x, c, 0) := fun c x => rfl
  have hs2 : ∀ c x : ℚ, hsvSector 2 c x = (0, c, x) := fun c x => rfl
  have hs3 : ∀ c x : ℚ, hsvSector 3 c x = (0, x, c) := fun c x => rfl
  have hs4 : ∀ c x : ℚ, hsvSector 4 c x = (x, 0, c) := fun c x => rfl
  have hs5 : ∀ c x : ℚ, hsvSector 5 c x = (c, 0, x) := fun c x => rfl
  have ht0 : Int.toNat 0 = 0 := rfl
  have ht1 : Int.toNat 1 = 1 := rfl
  have ht2 : Int.toNat 2 = 2 := rfl
  have ht3 : Int.toNat 3 = 3 := rfl
  have ht4 : Int.toNat 4 = 4 := rfl
  have ht5 : Int.toNat 5 = 5 := rfl
  have habs : |(1 : ℚ)/2| = 1/2 := abs_of_nonneg (by norm_num)
  have hc0 : hsv_to_rgb 0 1 1 = ((1 : ℚ), (0 : ℚ), (0 : ℚ)) := by
    rw [hsv_to_rgb]; norm_num [hs0, ht0, habs]
  have hc1 : hsv_to_rgb 30 1 1 = ((1 : ℚ), (1/2 : ℚ), (0 : ℚ)) := by
    rw [hsv_to_rgb]; norm_num [hs0, ht0, habs]
  have hc2 : hsv_to_rgb 60 1 1 = ((1 : ℚ), (1 : ℚ), (0 : ℚ)) := by
    rw [hsv_to_rgb]; norm_num [hs1, ht1, habs]
  have hc3 : hsv_to_rgb 90 1 1 = ((1/2 : ℚ), (1 : ℚ), (0 : ℚ)) := by
    rw [hsv_to_rgb]; norm_num [hs1, ht1, habs]
  have hc4 : hsv_to_rgb 120 1 1 = ((0 : ℚ), (1 : ℚ), (0 : ℚ)) := by
    rw [hsv_to_rgb]; norm_num [hs2, ht2, habs]
  have hc5 : hsv_to_rgb 150 1 1 = ((0 : ℚ), (1 : ℚ), (1/2 : ℚ)) := by
    rw [hsv_to_rgb]; norm_num [hs2, ht2, habs]
  have hc6 : hsv_to_rgb 180 1 1 = ((0 : ℚ), (1 : ℚ), (1 : ℚ)) := by
    rw [hsv_to_rgb]; norm_num [hs3, ht3, habs]
  have hc7 : hsv_to_rgb 210 1 1 = ((0 : ℚ), (1/2 : ℚ), (1 : ℚ)) := by
    rw [hsv_to_rgb]; norm_num [hs3, ht3, habs]
  have hc8 : hsv_to_rgb 240 1 1 = ((0 : ℚ), (0 : ℚ), (1 : ℚ)) := by
    rw [hsv_to_rgb]; norm_num [hs4, ht4, habs]
  have hc9 : hsv_to_rgb 270 1 1 = ((1/2 : ℚ), (0 : ℚ), (1 : ℚ)) := by
    rw [hsv_to_rgb]; norm_num [hs4, ht4, habs]
  have hc10 : hsv_to_rgb 300 1 1 = ((1 : ℚ), (0 : ℚ), (1 : ℚ)) := by
    rw [hsv_to_rgb]; norm_num [hs5, ht5, habs]
  have hc11 : hsv_to_rgb 330 1 1 = ((1 : ℚ), (0 : ℚ), (1/2 : ℚ)) := by
    rw [hsv_to_rgb]; norm_num [hs5, ht5, habs]
  constructor
  · simp only [get_colour_core, chromaOpposite]
    norm_num [List.enum, List.enumFrom, hc0, hc1, hc2, hc3, hc4, hc5, hc6,
      hc7, hc8, hc9, hc10, hc11, List.replicate]
  · intro hq hcontra
    rcases hsv_to_rgb_full_has_zero_component hq with h | h | h <;>
      rw [hcontra] at h <;> norm_num at h

/-! ### Claim C2, the seed in real IEEE-754 binary32 arithmetic -/

/-- Round-half-to-even of a rational to an integer — the tie-breaking
rule of IEEE-754 round-to-nearest. -/
def rndHalfEven (q : ℚ) : ℤ :=
  if q - Int.floor q < 1/2 then Int.floor q
  else if (1 : ℚ)/2 < q - Int.floor q then Int.floor q + 1
  else if Int.floor q % 2 = 0 then Int.floor q else Int.floor q + 1

/-- The exact value of rounding a positive rational to IEEE-754 binary32
(`f32`: 24-bit significand, round to nearest, ties to even): the
significand `x / 2^(log₂ x - 23) ∈ [2^23, 2^24)` is rounded
half-to-even and scaled back.  Valid on the normal range (no overflow or
subnormals), which covers every value used below.  This is the rounding
Rust applies to `f32` literals, to `usize as f32` casts and to every
`f32` arithmetic operation. -/
def roundF32 (x : ℚ) : ℚ :=
  if x = 0 then 0
  else (rndHalfEven (x / (2 : ℚ) ^ (Int.log 2 x - 23)) : ℚ)
    * (2 : ℚ) ^ (Int.log 2 x - 23)

/-- The six weight literals of src/bars.rs lines 7-14 as the `f32`
constants they denote. -/
def f32Weights : List ℚ :=
  [roundF32 (8/100), roundF32 (16/100), roundF32 (16/100),
   roundF32 (26/100), roundF32 (22/100), roundF32 (12/100)]

/-- The seed `bins_per_range` of src/bars.rs line 27 computed in `f32`
exactly as the code computes it: `(num_bars as f32 * w).floor() as
usize` — the cast of `num_bars` rounds to nearest-even, the product is
correctly rounded, and `f32::floor` followed by `as usize` is
`⌊·⌋.toNat` (the floor of an `f32` in this range is exactly
representable). -/
def seedF32 (num_bars : ℕ) : List ℕ :=
  f32Weights.map fun w =>
    (Int.floor (roundF32 (roundF32 (num_bars : ℚ) * w))).toNat

lemma int_log_two_eq {x : ℚ} {v : ℤ} (hx : 0 < x)
    (h1 : ((2 : ℕ) : ℚ) ^ v ≤ x) (h2 : x < ((2 : ℕ) : ℚ) ^ (v + 1)) :
    Int.log 2 x = v := by
  have ha : v ≤ Int.log 2 x :=
    (Int.zpow_le_iff_le_log (by norm_num) hx).1 h1
  have hb : Int.log 2 x < v + 1 :=
    (Int.lt_zpow_iff_log_lt (by norm_num) hx).1 h2
  omega

lemma roundF32_eval {x : ℚ} {v : ℤ} (hx : 0 < x)
    (h1 : ((2 : ℕ) : ℚ) ^ v ≤ x) (h2 : x < ((2 : ℕ) : ℚ) ^ (v + 1)) :
    roundF32 x
      = (rndHalfEven (x / (2 : ℚ) ^ (v - 23)) : ℚ) * (2 : ℚ) ^ (v - 23) := by
  rw [roundF32, if_neg hx.ne', int_log_two_eq hx h1 h2]

lemma roundF32_w8 : roundF32 (8/100) = 5368709/67108864 := by
  rw [roundF32_eval (v := -4) (by norm_num) (by norm_num) (by norm_num)]
  norm_num [rndHalfEven]

lemma roundF32_w16 : roundF32 (16/100) = 5368709/33554432 := by
  rw [roundF32_eval (v := -3) (by norm_num) (by norm_num) (by norm_num)]
  norm_num [rndHalfEven]

lemma roundF32_w26 : roundF32 (26/100) = 1090519/4194304 := by
  rw [roundF32_eval (v := -2) (by norm_num) (by norm_num) (by norm_num)]
  norm_num [rndHalfEven]

lemma roundF32_w22 : roundF32 (22/100) = 7381975/33554432 := by
  rw [roundF32_eval (v := -3) (by norm_num) (by norm_num) (by norm_num)]
  norm_num [rndHalfEven]

lemma roundF32_w12 : roundF32 (12/100) = 16106127/134217728 := by
  rw [roundF32_eval (v := -4) (by norm_num) (by norm_num) (by norm_num)]
  norm_num [rndHalfEven]

lemma roundF32_n : roundF32 (16777299 : ℚ) = 16777300 := by
  rw [roundF32_eval (v := 24) (by norm_num) (by norm_num) (by norm_num)]
  norm_num [rndHalfEven]

lemma roundF32_p1 : roundF32 (22518110376425/16777216) = 1342184 := by
  rw [roundF32_eval (v := 20) (by norm_num) (by norm_num) (by norm_num)]
  norm_num [rndHalfEven]

lemma roundF32_p2 : roundF32 (22518110376425/8388608) = 2684368 := by
  rw [roundF32_eval (v := 21) (by norm_num) (by norm_num) (by norm_num)]
  norm_num [rndHalfEven]

lemma roundF32_p4 : roundF32 (4573991104675/1048576) = 4362098 := by
  rw [roundF32_eval (v := 22) (by norm_num) (by norm_num) (by norm_num)]
  norm_num [rndHalfEven]

lemma roundF32_p5 : roundF32 (30962402291875/8388608) = 3691006 := by
  rw [roundF32_eval (v := 21) (by norm_num) (by norm_num) (by norm_num)]
  norm_num [rndHalfEven]

lemma roundF32_p6 : roundF32 (67554331129275/33554432) = 2013276 := by
  rw [roundF32_eval (v := 20) (by norm_num) (by norm_num) (by norm_num)]
  norm_num [rndHalfEven]

lemma seedF32_16777299 :
    seedF32 16777299
      = [1342184, 2684368, 2684368, 4362098, 3691006, 2013276] := by
  rw [seedF32, f32Weights]
  simp only [roundF32_w8, roundF32_w16, roundF32_w26, roundF32_w22,
    roundF32_w12, List.map_cons, List.map_nil]
  norm_num [roundF32_n, roundF32_p1, roundF32_p2, roundF32_p4, roundF32_p5,
    roundF32_p6]
  decide

/-- Counterexample to claim C2 as stated.  The claim quantifies over
every bar count `n ≥ 1`, but the code computes the seed in `f32`:
`(num_bars as f32 * v).floor() as usize` (src/bars.rs line 27).  At
`n = 16777299`, `num_bars as f32` rounds to `16777300` (the halfway tie
between the representable neighbours 16777298 and 16777300 breaks to
even), the six floored products are
`[1342184, 2684368, 2684368, 4362098, 3691006, 2013276]`, summing to
`16777300 > n`; the shortfall loop therefore does not run and the code
returns `16777300` ranges — the number of ranges differs from the
requested bar count on a normal, non-panicking run. -/
theorem c2_counterexample :
    seedF32 16777299
        = [1342184, 2684368, 2684368, 4362098, 3691006, 2013276] ∧
    (log_ranges (fun _ _ => (0, 0)) (seedF32 16777299) 16777299).map
        List.length = some 16777300 ∧
    (16777300 : ℕ) ≠ 16777299 := by
  refine ⟨seedF32_16777299, ?_, by norm_num⟩
  rw [log_ranges, seedF32_16777299]
  have hwf : whileFill 16777299
      [1342184, 2684368, 2684368, 4362098, 3691006, 2013276]
      ([1342184, 2684368, 2684368, 4362098, 3691006, 2013276] :
        List ℕ).sum 0
      = some [1342184, 2684368, 2684368, 4362098, 3691006, 2013276] := by
    rw [whileFill, dif_neg (by decide)]
  rw [hwf]
  simp only [Option.map_some']
  rw [clampRanges_length, rawBounds_length]
  decide
